import Mathlib

/-!
# Verification of the CIDLC pack generator (cidlc package, gen_pack.go)

A shallow embedding of the Coconut IDL compiler's TypeScript pack generator:
the `PackGenerator` type-name mapper (`GenTypeName`, `registerForeign`), the
recursive field flattener (`forEachField` / `forEachStructField`), the per-kind
member emitters (`EmitAlias`, `EmitConst`, `EmitEnum`, `EmitResource`,
`EmitStruct` and their helpers), the file-body assembler (`genFileBody`) and
the header assembler (`emitFileContents`).

The Go writer (`bufio.Writer` fed by `writefmt`) is modelled as an accumulated
list of emitted chunks, one chunk per `writefmt` call; the final file text is
the concatenation (`String.join`) of the chunks.  Fatal conditions
(`contract.Assert` / `contract.Failf` and panicking type assertions or
out-of-range slice indexing) are modelled by `Option`: `none` is the aborted
run.  The mutable per-file fields of `PackGenerator` (`Fhadres`, `Ffimp`,
`Flimp`) become an explicit state record threaded through every emitter.
-/

namespace Cidlc

/-! ## Data model -/

/-- The kinds of `go/types` basic types that can occur on a field.  `bool`,
`string` and `float64` are the ones `GenTypeName` supports; `other` stands for
every remaining Go basic kind (int, uint8, complex64, ...), on which
`GenTypeName` hits its fatal default branch. -/
inductive BasicKind where
  | bool
  | string
  | float64
  | other (k : Nat)
deriving Repr, DecidableEq

/-- The data `GenTypeName` reads off a `*types.Named`: the declaring package's
path and name (`obj.Pkg().Path()`, `obj.Pkg().Name()`) and the object's own
name (`obj.Name()`).  Package identity (the Go pointer comparison
`pkg == pg.Currpkg.Pkginfo.Pkg`) is modelled by package-path equality, which is
how `go/types` keys packages. -/
structure NamedInfo where
  pkgPath : String
  pkgName : String
  name : String
deriving Repr, DecidableEq

/-- The subset of `go/types.Type` shapes reachable from an IDL field:
basic types, named references, maps, pointers and slices.  Any other shape
hits `GenTypeName`'s fatal default branch and is not representable in
well-formed input. -/
inductive GoType where
  | basic : BasicKind → GoType
  | named : NamedInfo → GoType
  | mapType : GoType → GoType → GoType
  | pointer : GoType → GoType
  | slice : GoType → GoType
deriving Repr, DecidableEq

/-- `PropertyOptions`: per-field IDL metadata (target name and the
`Optional` / `Out` / `Replaces` flags). -/
structure PropertyOptions where
  name : String
  optional : Bool
  out : Bool
  replaces : Bool
deriving Repr, DecidableEq

mutual
/-- A field slot of a `*types.Struct` as the flattener sees it: either a real
(non-anonymous) field carrying its type, or an anonymous/embedded field whose
named type's underlying struct contributes its own field list.  The Go code's
fatal type assertions (`fld.Type().(*types.Named)`,
`named.Underlying().(*types.Struct)`) mean a well-formed embedded slot always
carries a struct, which the `embed` constructor holds directly. -/
inductive SField where
  | leaf : GoType → SField
  | embed : SStruct → SField
/-- A `*types.Struct`: its ordered field sequence
(`Field(0) ... Field(NumFields()-1)`), written as a cons-list. -/
inductive SStruct where
  | snil : SStruct
  | scons : SField → SStruct → SStruct
end

/-- Build an `SStruct` from an ordinary field list. -/
def SStruct.ofList : List SField → SStruct
  | [] => .snil
  | f :: rest => .scons f (SStruct.ofList rest)

/-- A `TypeMember` (the interface satisfied by `*Resource` and `*Struct`):
`Struct()` yields the underlying field sequence and `PropertyOptions()` the
parallel options sequence, one options slot per leaf field of the whole
embedding tree. -/
structure TypeMember where
  name : String
  fields : SStruct
  propertyOptions : List PropertyOptions

/-- Modelled from the spec: `Alias` (declared outside this file) wraps a
Name and a Target type. -/
structure Alias where
  name : String
  target : GoType
deriving Repr, DecidableEq

/-- Modelled from the spec: `Const` (declared outside this file) wraps a Name,
a Type and a literal Value; `Value.String()` is the value's literal source
text, taken verbatim by the emitter. -/
structure Const where
  name : String
  type : GoType
  value : String
deriving Repr, DecidableEq

/-- Modelled from the spec: `Enum` (declared outside this file) wraps a Name
and an ordered sequence of string values; each value's string form is the
quoted string-literal text (the resolved constant's source form), emitted
verbatim by `EmitEnum`. -/
structure Enum where
  name : String
  values : List String
deriving Repr, DecidableEq

/-- A package member: one of the five kinds `genFileBody` dispatches on. -/
inductive Member where
  | alias : Alias → Member
  | const : Const → Member
  | enum : Enum → Member
  | resource : TypeMember → Member
  | struct : TypeMember → Member

/-! ## Generator context and state -/

/-- The read-only context `GenTypeName` and `emitFileContents` consult:
`out` is `pg.Out`, `currPkgPath` identifies `pg.Currpkg.Pkginfo.Pkg`,
`memberFiles` is `pg.Currpkg.MemberFiles[·].Path` (total, since the upstream
loader resolves every referenced member), and `currfile` is `pg.Currfile`. -/
structure GenCtx where
  out : String
  currPkgPath : String
  memberFiles : String → String
  currfile : String

/-- The mutable per-file fields of `PackGenerator`: `Fhadres`,
`Flimp` (a map used as a set of local member names: its key list, no
duplicates by construction) and `Ffimp` (a map from foreign package path to
allocated import name: an association list keyed without duplicates). -/
structure PGState where
  fhadres : Bool
  flimp : List String
  ffimp : List (String × String)
deriving Repr, DecidableEq

/-- The state at the top of `EmitFile`: `false, make(map...), make(map...)`. -/
def PGState.init : PGState := ⟨false, [], []⟩

/-- Map-style insertion into the `Flimp` key set: `pg.Flimp[name] = true`
adds the key only when absent. -/
def insertLocal (l : List String) (name : String) : List String :=
  if name ∈ l then l else l ++ [name]

/-- Association-list lookup, the model of Go's `impname, has := pg.Ffimp[path]`. -/
def lookupFF : List (String × String) → String → Option String
  | [], _ => none
  | (p, n) :: rest, q => if p = q then some n else lookupFF rest q

/-- `registerForeign`: if the package path has an entry, reuse its import
name; otherwise allocate the package's own name as the import name and record
it. -/
def registerForeign (st : PGState) (pkgPath pkgName : String) : String × PGState :=
  match lookupFF st.ffimp pkgPath with
  | some impname => (impname, st)
  | none => (pkgName, { st with ffimp := st.ffimp ++ [(pkgPath, pkgName)] })

/-! ## GenTypeName -/

/-- `GenTypeName`: maps a Go type shape to TypeScript type text, recording
same-package (different-file) member names in `Flimp` and foreign packages in
`Ffimp` on the way.  `none` models the fatal `contract.Failf` on unsupported
basic kinds (the unrecognized-shape default branch is unrepresentable in
`GoType`). -/
def GenTypeName (ctx : GenCtx) : GoType → PGState → Option (String × PGState)
  | .basic k, st =>
    match k with
    | .bool => some ("boolean", st)
    | .string => some ("string", st)
    | .float64 => some ("number", st)
    | .other _ => none
  | .named info, st =>
    if info.pkgPath = ctx.currPkgPath then
      -- same package: if declared in another file, request a local import.
      if ctx.memberFiles info.name ≠ ctx.currfile then
        some (info.name, { st with flimp := insertLocal st.flimp info.name })
      else
        some (info.name, st)
    else
      -- foreign package: refer through a qualified import name.
      let r := registerForeign st info.pkgPath info.pkgName
      some (r.1 ++ "." ++ info.name, r.2)
  | .mapType k v, st => do
    let rk ← GenTypeName ctx k st
    let rv ← GenTypeName ctx v rk.2
    some ("\x7b[key: " ++ rk.1 ++ "]: " ++ rv.1 ++ "\x7d", rv.2)
  | .pointer e, st =>
    GenTypeName ctx e st  -- no pointers in TypeScript, just the underlying type.
  | .slice e, st => do
    let re ← GenTypeName ctx e st
    some (re.1 ++ "[]", re.2)

/-! ## Field flattening -/

/-- `forEachStructField`, defunctionalized: instead of invoking a callback, it
returns the ordered list of (field type, options) pairs the callback would be
invoked on, together with the Go function's return value `n` (the number of
options slots consumed).  The options cursor `j` is represented by passing the
remaining options suffix: a leaf consumes `opts[0]` and the tail continues at
`opts.drop 1`; an embedded struct consumes `k` slots (`opts[j:]` is the
current suffix) and the tail continues at `opts.drop k`.  `none` models the
Go panic on an out-of-range `opts[j]`. -/
def forEachStructField : SStruct → List PropertyOptions →
    Option (List (GoType × PropertyOptions) × Nat)
  | .snil, _ => some ([], 0)
  | .scons (.leaf t) rest, opts => do
    let o ← opts.head?
    let r ← forEachStructField rest (opts.drop 1)
    some ((t, o) :: r.1, r.2 + 1)
  | .scons (.embed inner) rest, opts => do
    let ri ← forEachStructField inner opts
    let r ← forEachStructField rest (opts.drop ri.2)
    some (ri.1 ++ r.1, ri.2 + r.2)

/-- `forEachField`: flattening entry point for a `TypeMember`. -/
def forEachField (t : TypeMember) : Option (List (GoType × PropertyOptions) × Nat) :=
  forEachStructField t.fields t.propertyOptions

/-- Specification-level flattening: the depth-first, left-to-right sequence of
leaf field types of an embedding tree. -/
def leaves : SStruct → List GoType
  | .snil => []
  | .scons (.leaf t) rest => t :: leaves rest
  | .scons (.embed inner) rest => leaves inner ++ leaves rest

/-- The number of leaf (non-anonymous) fields summed across the whole
embedding tree. -/
def leafCount : SStruct → Nat
  | .snil => 0
  | .scons (.leaf _) rest => 1 + leafCount rest
  | .scons (.embed inner) rest => leafCount inner + leafCount rest

/-! ## Per-member emitters

Each emitter returns the list of chunks its `writefmt` calls produce, plus the
updated generator state; `none` is a fatal abort. -/

/-- `emitField`: a single field line, `prefix readonly? name ?opt : type;`.
(`pre` is the Go parameter named `prefix`.) -/
def emitField (ctx : GenCtx) (fldTy : GoType) (opt : PropertyOptions) (pre : String)
    (st : PGState) : Option (String × PGState) := do
  let readonly := if opt.replaces then "readonly " else ""
  let optional := if opt.optional then "?" else ""
  let typ ← GenTypeName ctx fldTy st
  some (pre ++ readonly ++ opt.name ++ optional ++ ": " ++ typ.1 ++ ";\n", typ.2)

/-- The callback `emitResourceClass` passes to `forEachField` for the class
field-definition section: `emitField` with prefix `"    public "`, applied to
every flattened field. -/
def emitClassProps (ctx : GenCtx) :
    List (GoType × PropertyOptions) → PGState → Option (List String × PGState)
  | [], st => some ([], st)
  | (t, o) :: rest, st => do
    let c ← emitField ctx t o "    public " st
    let r ← emitClassProps ctx rest c.2
    some (c.1 :: r.1, r.2)

/-- The callback `emitStructType` passes to `forEachField`: skip output
properties, emit the rest with prefix `"    "`. -/
def emitInterfaceProps (ctx : GenCtx) :
    List (GoType × PropertyOptions) → PGState → Option (List String × PGState)
  | [], st => some ([], st)
  | (t, o) :: rest, st =>
    if o.out then
      emitInterfaceProps ctx rest st
    else do
      let c ← emitField ctx t o "    " st
      let r ← emitInterfaceProps ctx rest c.2
      some (c.1 :: r.1, r.2)

/-- The callback `emitResourceClass` passes to `forEachField` for the
constructor body: skip `Out` fields; for the rest, guard required (non-
`Optional`) arguments with an `undefined` check that throws
`Missing required argument`, then self-assign the argument. -/
def emitCtorFields : List (GoType × PropertyOptions) → List String
  | [] => []
  | (_, opt) :: rest =>
    (if opt.out then []
     else
       (if opt.optional then []
        else
          ["        if (args." ++ opt.name ++ " === undefined) \x7b\n",
           "            throw new Error(\"Missing required argument \x27" ++ opt.name ++ "\x27\");\n",
           "        \x7d\n"])
       ++ ["        this." ++ opt.name ++ " = args." ++ opt.name ++ ";\n"])
    ++ emitCtorFields rest

/-- `emitResourceClass`: class header, every field as a `public` property, a
blank line when there was at least one field, then the validating
constructor. -/
def emitResourceClass (ctx : GenCtx) (res : TypeMember) (st : PGState) :
    Option (List String × PGState) := do
  let name := res.name
  let fres ← forEachField res
  let props ← emitClassProps ctx fres.1 st
  let gap := if fres.2 > 0 then ["\n"] else []
  let fres2 ← forEachField res
  some (["export class " ++ name ++ " extends coconut.Resource implements " ++
           name ++ "Args \x7b\n"] ++
        props.1 ++ gap ++
        ["    constructor(args: " ++ name ++ "Args) \x7b\n", "        super();\n"] ++
        emitCtorFields fres2.1 ++
        ["    \x7d\n", "\x7d\n"],
        props.2)

/-- `emitStructType`: an `export interface` with one line per flattened
non-`Out` field. -/
def emitStructType (ctx : GenCtx) (t : TypeMember) (name : String) (st : PGState) :
    Option (List String × PGState) := do
  let fs ← forEachField t
  let props ← emitInterfaceProps ctx fs.1 st
  some (["export interface " ++ name ++ " \x7b\n"] ++ props.1 ++ ["\x7d\n"], props.2)

/-- `EmitAlias`: `export type Name = Target;`. -/
def EmitAlias (ctx : GenCtx) (a : Alias) (st : PGState) : Option (List String × PGState) := do
  let t ← GenTypeName ctx a.target st
  some (["export type " ++ a.name ++ " = " ++ t.1 ++ ";\n"], t.2)

/-- `EmitConst`: `export let Name: Type = Value;`, value text verbatim. -/
def EmitConst (ctx : GenCtx) (c : Const) (st : PGState) : Option (List String × PGState) := do
  let t ← GenTypeName ctx c.type st
  some (["export let " ++ c.name ++ ": " ++ t.1 ++ " = " ++ c.value ++ ";\n"], t.2)

/-- The value lines of `EmitEnum`'s loop: `" |\n"` before every value except
the first (`first` is `i = 0`), then the indented value text verbatim. -/
def enumValueChunks (first : Bool) : List String → List String
  | [] => []
  | v :: rest => (if first then [] else [" |\n"]) ++ ["    " ++ v] ++ enumValueChunks false rest

/-- `EmitEnum`: asserts a non-empty value sequence (fatal otherwise), then a
union type joining the values with `|`. -/
def EmitEnum (enum : Enum) : Option (List String) :=
  if enum.values.length > 0 then
    some (["export type " ++ enum.name ++ " =\n"] ++ enumValueChunks true enum.values ++ [";\n"])
  else none

/-- `EmitResource`: the resource class, a blank line, the `Args` interface;
records that the file had a resource. -/
def EmitResource (ctx : GenCtx) (res : TypeMember) (st : PGState) :
    Option (List String × PGState) := do
  let cls ← emitResourceClass ctx res st
  let args ← emitStructType ctx res (res.name ++ "Args") cls.2
  some (cls.1 ++ ["\n"] ++ args.1, { args.2 with fhadres := true })

/-- `EmitStruct`: an interface under the struct's own name. -/
def EmitStruct (ctx : GenCtx) (s : TypeMember) (st : PGState) :
    Option (List String × PGState) :=
  emitStructType ctx s s.name st

/-! ## File body assembly -/

/-- `_, isalias := m.(*Alias)`. -/
def isAliasM : Member → Bool
  | .alias _ => true
  | _ => false

/-- `_, isconst := m.(*Const)`. -/
def isConstM : Member → Bool
  | .const _ => true
  | _ => false

/-- `reflect.TypeOf(m) == reflect.TypeOf(members[i-1])`: the two members are
the same dynamic kind. -/
def sameMemberKind : Member → Member → Bool
  | .alias _, .alias _ => true
  | .const _, .const _ => true
  | .enum _, .enum _ => true
  | .resource _, .resource _ => true
  | .struct _, .struct _ => true
  | _, _ => false

/-- The dispatch of `genFileBody`'s `switch` on the member kind. -/
def emitMember (ctx : GenCtx) (m : Member) (st : PGState) : Option (List String × PGState) :=
  match m with
  | .alias a => EmitAlias ctx a st
  | .const c => EmitConst ctx c st
  | .enum e => (EmitEnum e).map (fun cs => (cs, st))
  | .resource r => EmitResource ctx r st
  | .struct s => EmitStruct ctx s st

/-- The member loop of `genFileBody`: before every member except the first
(`prev = none` only at `i = 0`), a blank line unless the member is an alias
or const of the exact same kind as its predecessor. -/
def genMembers (ctx : GenCtx) : List Member → Option Member → PGState →
    Option (List String × PGState)
  | [], _, st => some ([], st)
  | m :: rest, prev, st => do
    let sep : List String :=
      match prev with
      | none => []
      | some p =>
        if (!(isAliasM m) && !(isConstM m)) || !(sameMemberKind m p) then ["\n"] else []
    let c ← emitMember ctx m st
    let r ← genMembers ctx rest (some m) c.2
    some (sep ++ c.1 ++ r.1, r.2)

/-- `genFileBody`: all members in declared order, separated per the grouping
policy, with a final newline, flushed to a single string. -/
def genFileBody (ctx : GenCtx) (members : List Member) (st : PGState) :
    Option (String × PGState) := do
  let r ← genMembers ctx members none st
  some (String.join (r.1 ++ ["\n"]), r.2)

/-! ## Path model

The generator manipulates slash-separated relative paths through Go's
`strings` and `path/filepath` packages.  The model below reproduces those
functions character-for-character for the inputs the generator feeds them:
already-clean relative paths (no `.` or `..` segments, no empty segments, no
trailing separator), which is what `filepath.Join` of the output root with a
loader-produced relative source path yields.  Indices are character indices;
the paths involved are ASCII, so they agree with Go's byte indices. -/

/-- The index of the last occurrence of `c`,`strings.LastIndex`-style
(`none` for Go's `-1`). -/
def lastIdxOf (c : Char) : List Char → Option Nat
  | [] => none
  | a :: rest =>
    match lastIdxOf c rest with
    | some i => some (i + 1)
    | none => if a = c then some 0 else none

/-- `strings.LastIndex(s, c)` for a single-character needle. -/
def strLastIndex (s : String) (c : Char) : Option Nat :=
  lastIdxOf c s.data

/-- The extension-swap at the top of `emitFileContents`: truncate at the last
`.` anywhere in the path, if any, then append `.ts`. -/
def tsOutputPath (file : String) : String :=
  (match strLastIndex file '.' with
   | some dotindex => String.mk (file.data.take dotindex)
   | none => file) ++ ".ts"

/-- Truncate at the last `.` (the `strings.LastIndex` / slice idiom used
on the import names; a dot is known to exist at the call site). -/
def stripLastDot (s : String) : String :=
  match strLastIndex s '.' with
  | some i => String.mk (s.data.take i)
  | none => s

/-- Character-level split on a separator (the behaviour of splitting a
string on a one-character separator: `""` yields `[""]`, adjacent separators
yield empty segments). -/
def splitOnChar (c : Char) : List Char → List (List Char)
  | [] => [[]]
  | a :: rest =>
    match splitOnChar c rest with
    | [] => []
    | s :: ss => if a = c then [] :: s :: ss else (a :: s) :: ss

/-- Path → segments. -/
def segsOf (p : String) : List String := (splitOnChar '/' p.data).map String.mk

/-- Segments → path. -/
def ofSegs (ss : List String) : String := String.intercalate "/" ss

/-- `strings.HasPrefix`, character-level. -/
def strStartsWith (s pre : String) : Bool := pre.data.isPrefixOf s.data

/-- `filepath.Dir` for a clean relative path: all but the last segment, or
`.` when the path has a single segment. -/
def dirPath (p : String) : String :=
  match (segsOf p).dropLast with
  | [] => "."
  | ss => ofSegs ss

/-- `filepath.Join` for clean, non-empty relative operands (on which Go's
trailing `Clean` is the identity). -/
def joinPath (a b : String) : String := a ++ "/" ++ b

/-- The segment computation inside `filepath.Rel`: strip the longest common
segment prefix, then one `..` per remaining base segment followed by the
remaining target segments. -/
def relSegs : List String → List String → List String
  | b :: bs, t :: ts =>
    if b = t then relSegs bs ts
    else (List.replicate (bs.length + 1) "..") ++ (t :: ts)
  | [], ts => ts
  | bs, [] => List.replicate bs.length ".."

/-- `filepath.Rel` for clean relative paths (`.` counts as zero segments);
on such inputs Go's Rel never returns an error, so the generator's
`contract.Assert(err == nil)` always passes. -/
def relPath (base targ : String) : String :=
  let bs := if base = "." then [] else segsOf base
  let ts := if targ = "." then [] else segsOf targ
  match relSegs bs ts with
  | [] => "."
  | ss => ofSegs ss

/-- `filepath.Ext`: scan backwards from the end of the final path element;
the suffix from the last dot, or empty if the final element has no dot. -/
def extScan : List Char → List Char → String
  | [], _ => ""
  | c :: rest, acc =>
    if c = '/' then ""
    else if c = '.' then String.mk (c :: acc)
    else extScan rest (c :: acc)

/-- `filepath.Ext(p)`. -/
def extOf (p : String) : String := extScan p.data.reverse []

/-! ## File contents assembly -/

/-- The body of the local-import loop in `emitFileContents`: relative module
path from the emitted file's directory to the referenced member's home file
under the output root, `./`-prefixed when not already dot-relative, extension
stripped, wrapped in an `import` line. -/
def localImportLine (ctx : GenCtx) (file : String) (localName : String) : String :=
  let dir := dirPath file
  let module := ctx.memberFiles localName
  let relimp := relPath dir (joinPath ctx.out module)
  let impname := if strStartsWith relimp "." then relimp else "./" ++ relimp
  let impname2 := if extOf impname ≠ "" then stripLastDot impname else impname
  "import \x7b" ++ localName ++ "\x7d from \"" ++ impname2 ++ "\";\n"

/-- The fixed two-line generated-file banner plus its trailing blank line. -/
def bannerChunks : List String :=
  ["// *** WARNING: this file was generated by the Coconut IDL Compiler (CIDLC).  ***\n",
   "// *** Do not edit by hand unless you are taking matters into your own hands! ***\n",
   "\n"]

/-- `emitFileContents`: swap the extension for `.ts`, then banner, the
Coconut import when the file had a resource, one local-import line per
recorded `Flimp` key (with a trailing blank line when any), a fatal
`contract.Failf` if any foreign package was recorded, and finally the body
plus a newline.  The emitted text is returned instead of written. -/
def emitFileContents (ctx : GenCtx) (file : String) (body : String) (st : PGState) :
    Option String :=
  let out := tsOutputPath file
  let resimp : List String :=
    if st.fhadres then ["import * as coconut from \"@coconut/coconut\";\n", "\n"] else []
  let locimp : List String :=
    if st.flimp.length > 0 then st.flimp.map (localImportLine ctx out) ++ ["\n"] else []
  if st.ffimp.length > 0 then
    none  -- contract.Failf: Foreign imports not yet supported.
  else
    some (String.join (bannerChunks ++ resimp ++ locimp ++ [body ++ "\n"]))

/-- `EmitFile`: reset the per-file state, generate the body first (so that
the imports are known), then assemble the full file contents. -/
def EmitFile (ctx : GenCtx) (file : String) (members : List Member) : Option String := do
  let r ← genFileBody ctx members PGState.init
  emitFileContents ctx file r.1 r.2

/-! ## Specification-side definitions

These restate contracts in the specification's own terms; the theorems below
compare them with the translated source definitions. -/

/-- Constructor-body contract, following the specification text: an `Out`
field contributes nothing; a required (non-`Optional`) field contributes the
`Missing required argument` guard followed by the self-assignment; an
optional field contributes the self-assignment alone. -/
def ctorFieldSpec (opt : PropertyOptions) : List String :=
  if opt.out then []
  else if opt.optional then
    ["        this." ++ opt.name ++ " = args." ++ opt.name ++ ";\n"]
  else
    ["        if (args." ++ opt.name ++ " === undefined) \x7b\n",
     "            throw new Error(\"Missing required argument \x27" ++ opt.name ++ "\x27\");\n",
     "        \x7d\n",
     "        this." ++ opt.name ++ " = args." ++ opt.name ++ ";\n"]

/-- Separator contract, following the specification text: two adjacent
members of the exact same kind, where that kind is Alias or Const, get no
blank line; every other adjacent pair gets one. -/
def sepSpec (p m : Member) : List String :=
  if sameMemberKind p m && (isAliasM m || isConstM m) then [] else ["\n"]

/-- `genMembers` with its separator condition replaced by the
specification-worded `sepSpec`. -/
def genMembersSpec (ctx : GenCtx) : List Member → Option Member → PGState →
    Option (List String × PGState)
  | [], _, st => some ([], st)
  | m :: rest, prev, st => do
    let sep : List String :=
      match prev with
      | none => []
      | some p => sepSpec p m
    let c ← emitMember ctx m st
    let r ← genMembersSpec ctx rest (some m) c.2
    some (sep ++ c.1 ++ r.1, r.2)

/-- The local member names a type shape references from other files of the
current package (the names `GenTypeName` must record in `Flimp`). -/
def localRefs (ctx : GenCtx) : GoType → List String
  | .basic _ => []
  | .named i =>
    if i.pkgPath = ctx.currPkgPath then
      if ctx.memberFiles i.name ≠ ctx.currfile then [i.name] else []
    else []
  | .mapType k v => localRefs ctx k ++ localRefs ctx v
  | .pointer e => localRefs ctx e
  | .slice e => localRefs ctx e

/-- The foreign package paths a type shape references (the keys
`GenTypeName` must record in `Ffimp`). -/
def foreignRefs (ctx : GenCtx) : GoType → List String
  | .basic _ => []
  | .named i => if i.pkgPath = ctx.currPkgPath then [] else [i.pkgPath]
  | .mapType k v => foreignRefs ctx k ++ foreignRefs ctx v
  | .pointer e => foreignRefs ctx e
  | .slice e => foreignRefs ctx e

/-- The key list of the foreign-import map. -/
def ffKeys (st : PGState) : List String := st.ffimp.map Prod.fst

/-- State extension: every local-import key of `s1` is one of `s2`, and every
foreign-import binding of `s1` is a binding of `s2`. -/
def StExt (s1 s2 : PGState) : Prop :=
  (∀ n, n ∈ s1.flimp → n ∈ s2.flimp) ∧
  (∀ p v, lookupFF s1.ffimp p = some v → lookupFF s2.ffimp p = some v)

/-- The claim-side module path of a local import: the relative path from the
emitted file's directory to the referenced member's home file under the
output root, with the file extension stripped, `./`-prefixed when the
computed relative path does not already start with `.`. -/
def modulePathSpec (ctx : GenCtx) (file : String) (localName : String) : String :=
  let rel := relPath (dirPath file) (joinPath ctx.out (ctx.memberFiles localName))
  let stripped := if extOf rel ≠ "" then stripLastDot rel else rel
  if strStartsWith rel "." then stripped else "./" ++ stripped

/-- The claim-side local-import line. -/
def importLineSpec (ctx : GenCtx) (file : String) (localName : String) : String :=
  "import \x7b" ++ localName ++ "\x7d from \"" ++ modulePathSpec ctx file localName ++ "\";\n"

/-! ## Concrete example inputs -/

/-- A one-file context: every member lives in `other.go`, another file of the
same package. -/
def ctx0 : GenCtx := ⟨"out", "pkg", fun _ => "other.go", "cur.go"⟩

/-- A required field `a`. -/
def optA : PropertyOptions := ⟨"a", false, false, false⟩

/-- An optional field `b`. -/
def optB : PropertyOptions := ⟨"b", true, false, false⟩

/-- An output field `c`. -/
def optC : PropertyOptions := ⟨"c", false, true, false⟩

/-- A resource with fields `a` (required), `b` (optional) and `c` (Out). -/
def res0 : TypeMember :=
  ⟨"Res", .ofList [.leaf (.basic .string), .leaf (.basic .string), .leaf (.basic .string)],
   [optA, optB, optC]⟩

/-- A member with depth-2 anonymous embedding and five leaf fields. -/
def tEx : TypeMember :=
  ⟨"Deep",
   .ofList [.leaf (.basic .bool),
    .embed (.ofList [.leaf (.basic .string), .embed (.ofList [.leaf (.basic .float64)]),
                     .leaf (.basic .bool)]),
    .leaf (.basic .string)],
   [optA, optB, optC, ⟨"d", false, false, false⟩, ⟨"e", false, false, false⟩]⟩

/-- The enum `Color` with the three quoted values of the specification's
end-to-end example. -/
def colorEnum : Enum := ⟨"Color", ["\"Red\"", "\"Green\"", "\"Blue\""]⟩

/-- An enum with no values. -/
def emptyEnum : Enum := ⟨"Empty", []⟩

/-- Example const member `K1`. -/
def k1 : Const := ⟨"K1", .basic .string, "\"v1\""⟩

/-- Example const member `K2`. -/
def k2 : Const := ⟨"K2", .basic .bool, "true"⟩

/-- Example alias member `A1`. -/
def a1 : Alias := ⟨"A1", .basic .float64⟩

/-- Example const member `K3`. -/
def k3 : Const := ⟨"K3", .basic .string, "\"v3\""⟩

/-- A context whose current file is `a/b.go` and whose member `Other` lives
in `c/d.go` of the same package. -/
def ctx8 : GenCtx := ⟨"out", "pkg", (fun n => if n = "Other" then "c/d.go" else "x.go"), "a/b.go"⟩

/-- A shape referencing one foreign package (`fp`) and one non-co-located
local member (`Other`), through a map, a slice and a pointer. -/
def tF : GoType :=
  .mapType (.named ⟨"fp", "fpkg", "X"⟩) (.slice (.pointer (.named ⟨"pkg", "pkg", "Other"⟩)))

/-- The state `GenTypeName` reaches after mapping `tF` from the initial
state: `Other` recorded locally, `fp` recorded under import name `fpkg`. -/
def stF : PGState := ⟨false, ["Other"], [("fp", "fpkg")]⟩

/-- A post-body state with a resource seen, the local member `Other`
recorded, and no foreign reference. -/
def stW : PGState := ⟨true, ["Other"], []⟩

/-! # Theorems -/

/-! ## C1: field flattening -/

/-- The depth-first leaf sequence is as long as the summed leaf count. -/
theorem leaves_length (s : SStruct) : (leaves s).length = leafCount s := by
  induction s using leaves.induct with
  | case1 => simp [leaves, leafCount]
  | case2 t rest ih => simp [leaves, leafCount, ih, Nat.add_comm]
  | case3 inner rest ih1 ih2 => simp [leaves, leafCount, ih1, ih2]

/-- Zipping only consumes the first `A.length` elements of the other list. -/
theorem zip_take_length {α β : Type} : ∀ (A : List α) (l : List β),
    A.zip (l.take A.length) = A.zip l := by
  intro A
  induction A with
  | nil => intro l; simp
  | cons a A ih =>
    intro l
    cases l with
    | nil => simp
    | cons b l => simp [List.zip_cons_cons, ih]

/-- Zipping an appended list against a long-enough list splits at the
boundary, the right part starting at the corresponding offset. -/
theorem zip_append_drop {α β : Type} : ∀ (A B : List α) (l : List β),
    A.length ≤ l.length →
    (A ++ B).zip l = A.zip l ++ B.zip (l.drop A.length) := by
  intro A
  induction A with
  | nil => intro B l _; simp
  | cons a A ih =>
    intro B l h
    cases l with
    | nil => simp at h
    | cons b l =>
      simp only [List.length_cons, Nat.succ_le_succ_iff] at h
      simp [List.zip_cons_cons, ih B l h]

/-- `forEachStructField` computes the zip of the depth-first leaf sequence
with the options sequence, and returns the number of leaves consumed. -/
theorem forEachStructField_eq :
    ∀ (s : SStruct) (opts : List PropertyOptions),
    (leaves s).length ≤ opts.length →
    forEachStructField s opts = some ((leaves s).zip opts, (leaves s).length) := by
  intro s opts h
  induction s, opts using forEachStructField.induct with
  | case1 opts => simp [forEachStructField, leaves]
  | case2 t rest opts ih =>
    cases opts with
    | nil => simp [leaves] at h
    | cons o opts =>
      simp only [leaves, List.length_cons, Nat.succ_le_succ_iff] at h
      have ih2 := ih (by simpa using h)
      simp only [List.drop_succ_cons, List.drop_zero] at ih2
      simp [forEachStructField, leaves, ih2, List.zip_cons_cons]
  | case3 inner rest opts ih1 ih2 =>
    simp only [leaves, List.length_append] at h
    have hi : (leaves inner).length ≤ opts.length := le_trans (Nat.le_add_right _ _) h
    have hr : (leaves rest).length ≤ (opts.drop (leaves inner).length).length := by
      simp only [List.length_drop]
      omega
    have e1 := ih1 hi
    have e2 := ih2 ((leaves inner).zip opts, (leaves inner).length) hr
    simp only [forEachStructField, e1, e2, Option.bind_eq_bind, Option.some_bind, leaves]
    simp [zip_append_drop _ _ _ hi, List.length_append]

/-- C1: for every `TypeMember` whose options sequence covers its leaf count,
`forEachField` flattens anonymous/embedded fields depth-first, left-to-right
into the leaf sequence `leaves`, pairing it in lock-step with the options
sequence (each embedded member consuming a contiguous slice, reported by the
returned count); the number of flattened pairs equals the summed leaf count
of the whole embedding tree, and a zero-field member yields the empty
sequence. -/
theorem forEachField_flattens (t : TypeMember)
    (h : leafCount t.fields ≤ t.propertyOptions.length) :
    forEachField t = some ((leaves t.fields).zip t.propertyOptions, leafCount t.fields) ∧
    (leaves t.fields).length = leafCount t.fields ∧
    ((leaves t.fields).zip t.propertyOptions).length = leafCount t.fields ∧
    (t.fields = .snil → forEachField t = some ([], 0)) := by
  have hl : (leaves t.fields).length = leafCount t.fields := leaves_length _
  have hle : (leaves t.fields).length ≤ t.propertyOptions.length := by omega
  refine ⟨?_, hl, ?_, ?_⟩
  · rw [forEachField, forEachStructField_eq _ _ hle, hl]
  · rw [List.length_zip]
    omega
  · intro hnil
    rw [forEachField, hnil]
    simp [forEachStructField]

/-- C1 witness: the depth-2 embedding example `tEx` with five options. -/
theorem forEachField_flattens_witness :
    forEachField tEx = some ((leaves tEx.fields).zip tEx.propertyOptions, leafCount tEx.fields) ∧
    (leaves tEx.fields).length = leafCount tEx.fields ∧
    ((leaves tEx.fields).zip tEx.propertyOptions).length = leafCount tEx.fields ∧
    (tEx.fields = .snil → forEachField tEx = some ([], 0)) :=
  forEachField_flattens tEx (by decide)

/-! ## C2 and C3: resource class emission -/

/-- The constructor-body loop accumulates, in field order, exactly the
per-field contribution described by the specification. -/
theorem emitCtorFields_eq_spec (pairs : List (GoType × PropertyOptions)) :
    emitCtorFields pairs = (pairs.map (fun p => ctorFieldSpec p.2)).flatten := by
  induction pairs with
  | nil => rfl
  | cons p rest ih =>
    obtain ⟨t, o⟩ := p
    by_cases ho : o.out <;> by_cases hopt : o.optional <;>
      simp [emitCtorFields, ctorFieldSpec, ho, hopt, ih]

/-- The property-section fold emits one line per flattened field — `Out` or
not — of the shape `    public readonly? name ?opt : typ;`. -/
theorem emitClassProps_shape (ctx : GenCtx) : ∀ (pairs : List (GoType × PropertyOptions))
    (st : PGState) (cs : List String) (st' : PGState),
    emitClassProps ctx pairs st = some (cs, st') →
    cs.length = pairs.length ∧
    ∀ i (hc : i < cs.length) (hpr : i < pairs.length), ∃ typ,
      cs.get ⟨i, hc⟩ =
        "    public " ++ (if (pairs.get ⟨i, hpr⟩).2.replaces then "readonly " else "") ++
        (pairs.get ⟨i, hpr⟩).2.name ++
        (if (pairs.get ⟨i, hpr⟩).2.optional then "?" else "") ++ ": " ++ typ ++ ";\n" := by
  intro pairs
  induction pairs with
  | nil =>
    intro st cs st' h
    simp only [emitClassProps, Option.some.injEq, Prod.mk.injEq] at h
    obtain ⟨rfl, rfl⟩ := h
    exact ⟨rfl, fun i hc hpr => absurd hpr (Nat.not_lt_zero i)⟩
  | cons p rest ih =>
    intro st cs st' h
    obtain ⟨t, o⟩ := p
    simp only [emitClassProps, emitField, Option.bind_eq_bind, Option.bind_eq_some,
      Option.some.injEq, Prod.mk.injEq] at h
    obtain ⟨a, ⟨⟨tystr, tyst⟩, hty, hline⟩, ⟨rcs, rst⟩, hr, h1, h2⟩ := h
    subst hline
    subst h1
    subst h2
    obtain ⟨hlen, hshape⟩ := ih _ _ _ hr
    refine ⟨by simp [hlen], ?_⟩
    intro i hc hpr
    cases i with
    | zero => exact ⟨tystr, rfl⟩
    | succ j =>
      simp only [List.length_cons, Nat.succ_lt_succ_iff] at hc hpr
      exact hshape j hc hpr

/-- C2: for every resource whose flattening and property section succeed,
the generated constructor body handles the flattened fields in field order:
a non-`Out` required field gets the `Missing required argument` guard then the
self-assignment, a non-`Out` optional field the self-assignment alone, and an
`Out` field contributes nothing.  Concretely, for fields `a` (required), `b`
(optional), `c` (Out), the constructor guards only `a`, assigns `a` and `b`,
and never references `c`. -/
theorem emitResourceClass_ctor :
    (∀ (ctx : GenCtx) (res : TypeMember) (st : PGState)
       (pairs : List (GoType × PropertyOptions)) (n : Nat)
       (cs : List String) (st' : PGState),
       forEachField res = some (pairs, n) →
       emitClassProps ctx pairs st = some (cs, st') →
       emitResourceClass ctx res st =
         some (["export class " ++ res.name ++ " extends coconut.Resource implements " ++
                  res.name ++ "Args \x7b\n"] ++
               cs ++ (if n > 0 then ["\n"] else []) ++
               ["    constructor(args: " ++ res.name ++ "Args) \x7b\n", "        super();\n"] ++
               (pairs.map (fun p => ctorFieldSpec p.2)).flatten ++
               ["    \x7d\n", "\x7d\n"], st')) ∧
    emitCtorFields [(.basic .string, optA), (.basic .string, optB), (.basic .string, optC)] =
      ["        if (args.a === undefined) \x7b\n",
       "            throw new Error(\"Missing required argument \x27a\x27\");\n",
       "        \x7d\n",
       "        this.a = args.a;\n",
       "        this.b = args.b;\n"] ∧
    (∀ s ∈ emitCtorFields [(GoType.basic .string, optA), (GoType.basic .string, optB),
                           (GoType.basic .string, optC)], ¬ ('c' ∈ s.data)) := by
  refine ⟨?_, by decide, by decide⟩
  intro ctx res st pairs n cs st' hf hp
  simp only [emitResourceClass, hf, hp, Option.bind_eq_bind, Option.some_bind,
    emitCtorFields_eq_spec]

/-- C2 witness: the resource `res0` with fields `a` (required), `b`
(optional), `c` (Out). -/
theorem emitResourceClass_ctor_witness :
    emitResourceClass ctx0 res0 PGState.init =
      some (["export class " ++ res0.name ++ " extends coconut.Resource implements " ++
               res0.name ++ "Args \x7b\n"] ++
            ["    public a: string;\n", "    public b?: string;\n", "    public c: string;\n"] ++
            (if 3 > 0 then ["\n"] else []) ++
            ["    constructor(args: " ++ res0.name ++ "Args) \x7b\n", "        super();\n"] ++
            (([(GoType.basic .string, optA), (GoType.basic .string, optB),
               (GoType.basic .string, optC)]).map (fun p => ctorFieldSpec p.2)).flatten ++
            ["    \x7d\n", "\x7d\n"], PGState.init) :=
  emitResourceClass_ctor.1 ctx0 res0 PGState.init
    [(GoType.basic .string, optA), (GoType.basic .string, optB), (GoType.basic .string, optC)]
    3 ["    public a: string;\n", "    public b?: string;\n", "    public c: string;\n"]
    PGState.init rfl rfl

/-- C3 counterexample: for the resource `res0`, whose field `c` is marked
`Out`, the emitted class property section nevertheless contains the property
line `    public c: string;` — `Out` fields do appear as class properties. -/
theorem emitResourceClass_out_property :
    emitResourceClass ctx0 res0 PGState.init =
      some (["export class Res extends coconut.Resource implements ResArgs \x7b\n",
             "    public a: string;\n",
             "    public b?: string;\n",
             "    public c: string;\n",
             "\n",
             "    constructor(args: ResArgs) \x7b\n",
             "        super();\n",
             "        if (args.a === undefined) \x7b\n",
             "            throw new Error(\"Missing required argument \x27a\x27\");\n",
             "        \x7d\n",
             "        this.a = args.a;\n",
             "        this.b = args.b;\n",
             "    \x7d\n",
             "\x7d\n"], PGState.init) ∧
    "    public c: string;\n" ∈
      ["export class Res extends coconut.Resource implements ResArgs \x7b\n",
       "    public a: string;\n",
       "    public b?: string;\n",
       "    public c: string;\n",
       "\n",
       "    constructor(args: ResArgs) \x7b\n",
       "        super();\n",
       "        if (args.a === undefined) \x7b\n",
       "            throw new Error(\"Missing required argument \x27a\x27\");\n",
       "        \x7d\n",
       "        this.a = args.a;\n",
       "        this.b = args.b;\n",
       "    \x7d\n",
       "\x7d\n"] := by
  exact ⟨rfl, by decide⟩

/-- C3 amended: the emitted class declaration's property section restates
every flattened field — `Out` fields included — as a public property, with
the `readonly` marker exactly when the field's `Replaces` flag is set and the
`?` marker exactly when `Optional` is set. -/
theorem emitResourceClass_all_props :
    ∀ (ctx : GenCtx) (res : TypeMember) (st : PGState)
      (pairs : List (GoType × PropertyOptions)) (n : Nat)
      (cs : List String) (st' : PGState),
      forEachField res = some (pairs, n) →
      emitClassProps ctx pairs st = some (cs, st') →
      emitResourceClass ctx res st =
        some (["export class " ++ res.name ++ " extends coconut.Resource implements " ++
                 res.name ++ "Args \x7b\n"] ++
              cs ++ (if n > 0 then ["\n"] else []) ++
              ["    constructor(args: " ++ res.name ++ "Args) \x7b\n", "        super();\n"] ++
              emitCtorFields pairs ++ ["    \x7d\n", "\x7d\n"], st') ∧
      cs.length = pairs.length ∧
      (∀ i (hc : i < cs.length) (hpr : i < pairs.length), ∃ typ,
        cs.get ⟨i, hc⟩ =
          "    public " ++ (if (pairs.get ⟨i, hpr⟩).2.replaces then "readonly " else "") ++
          (pairs.get ⟨i, hpr⟩).2.name ++
          (if (pairs.get ⟨i, hpr⟩).2.optional then "?" else "") ++ ": " ++ typ ++ ";\n") := by
  intro ctx res st pairs n cs st' hf hp
  obtain ⟨hlen, hshape⟩ := emitClassProps_shape ctx pairs st cs st' hp
  refine ⟨?_, hlen, hshape⟩
  simp only [emitResourceClass, hf, hp, Option.bind_eq_bind, Option.some_bind]

/-- C3 amended witness: `res0` again; its `Out` field `c` is restated as the
public property on the third line. -/
theorem emitResourceClass_all_props_witness :
    emitResourceClass ctx0 res0 PGState.init =
      some (["export class " ++ res0.name ++ " extends coconut.Resource implements " ++
               res0.name ++ "Args \x7b\n"] ++
            ["    public a: string;\n", "    public b?: string;\n", "    public c: string;\n"] ++
            (if 3 > 0 then ["\n"] else []) ++
            ["    constructor(args: " ++ res0.name ++ "Args) \x7b\n", "        super();\n"] ++
            emitCtorFields [(GoType.basic .string, optA), (GoType.basic .string, optB),
                            (GoType.basic .string, optC)] ++
            ["    \x7d\n", "\x7d\n"], PGState.init) ∧
    (["    public a: string;\n", "    public b?: string;\n",
      "    public c: string;\n"] : List String).length =
      ([(GoType.basic .string, optA), (GoType.basic .string, optB),
        (GoType.basic .string, optC)] : List (GoType × PropertyOptions)).length ∧
    (∀ i (hc : i < (["    public a: string;\n", "    public b?: string;\n",
                     "    public c: string;\n"] : List String).length)
       (hpr : i < ([(GoType.basic .string, optA), (GoType.basic .string, optB),
                    (GoType.basic .string, optC)] : List (GoType × PropertyOptions)).length),
       ∃ typ,
        (["    public a: string;\n", "    public b?: string;\n",
          "    public c: string;\n"] : List String).get ⟨i, hc⟩ =
          "    public " ++
          (if (([(GoType.basic .string, optA), (GoType.basic .string, optB),
                 (GoType.basic .string, optC)] : List (GoType × PropertyOptions)).get
               ⟨i, hpr⟩).2.replaces then "readonly " else "") ++
          (([(GoType.basic .string, optA), (GoType.basic .string, optB),
             (GoType.basic .string, optC)] : List (GoType × PropertyOptions)).get ⟨i, hpr⟩).2.name ++
          (if (([(GoType.basic .string, optA), (GoType.basic .string, optB),
                 (GoType.basic .string, optC)] : List (GoType × PropertyOptions)).get
               ⟨i, hpr⟩).2.optional then "?" else "") ++ ": " ++ typ ++ ";\n") :=
  emitResourceClass_all_props ctx0 res0 PGState.init
    [(GoType.basic .string, optA), (GoType.basic .string, optB), (GoType.basic .string, optC)]
    3 ["    public a: string;\n", "    public b?: string;\n", "    public c: string;\n"]
    PGState.init rfl rfl

/-! ## C4: enum emission -/

/-- The continuation of the enum value loop (`i > 0`): prefixing the chunks
of the remaining values with an already-emitted first value matches the
interspersed form. -/
theorem enumValueChunks_aux : ∀ (vs : List String) (w : String),
    ("    " ++ w) :: enumValueChunks false vs =
      List.intersperse " |\n" (("    " ++ w) :: vs.map (fun x => "    " ++ x)) := by
  intro vs
  induction vs with
  | nil => intro w; rfl
  | cons u t ih =>
    intro w
    simp only [List.map_cons, List.intersperse_cons₂]
    rw [← ih u]
    simp [enumValueChunks]

/-- The enum value loop interleaves the `or` separator between the indented
values. -/
theorem enumValueChunks_eq (vs : List String) :
    enumValueChunks true vs = List.intersperse " |\n" (vs.map (fun v => "    " ++ v)) := by
  cases vs with
  | nil => rfl
  | cons v rest => simpa [enumValueChunks] using enumValueChunks_aux rest v

/-- C4: enum emission is fatal on an empty value sequence; a non-empty
sequence yields a union type joining the values (each emitted verbatim in its
quoted string-literal form) with the `or` separator, and the `Color` example
produces exactly the specified body. -/
theorem EmitEnum_union :
    (∀ e : Enum, e.values = [] → EmitEnum e = none) ∧
    (∀ e : Enum, e.values ≠ [] →
      EmitEnum e = some (["export type " ++ e.name ++ " =\n"] ++
        List.intersperse " |\n" (e.values.map (fun v => "    " ++ v)) ++ [";\n"])) ∧
    (EmitEnum colorEnum).map String.join =
      some "export type Color =\n    \"Red\" |\n    \"Green\" |\n    \"Blue\";\n" := by
  refine ⟨?_, ?_, by decide⟩
  · intro e he
    simp [EmitEnum, he]
  · intro e he
    have : e.values.length > 0 := List.length_pos.mpr he
    simp [EmitEnum, this, enumValueChunks_eq]

/-- C4 witness: the empty enum is fatal; `Color` emits the three-way union. -/
theorem EmitEnum_union_witness :
    EmitEnum emptyEnum = none ∧
    EmitEnum colorEnum = some (["export type " ++ colorEnum.name ++ " =\n"] ++
      List.intersperse " |\n" (colorEnum.values.map (fun v => "    " ++ v)) ++ [";\n"]) :=
  ⟨EmitEnum_union.1 emptyEnum rfl, EmitEnum_union.2.1 colorEnum (by decide)⟩

/-! ## C5: pointer elision -/

/-- C5: the type mapper elides pointers transparently: mapping `Pointer(T)`
is mapping `T` (same text, same recorded imports), at any depth — in
particular under a slice around a named reference. -/
theorem GenTypeName_pointer_elision :
    (∀ (ctx : GenCtx) (t : GoType) (st : PGState),
      GenTypeName ctx (.pointer t) st = GenTypeName ctx t st) ∧
    (∀ (ctx : GenCtx) (x : NamedInfo) (st : PGState),
      GenTypeName ctx (.slice (.pointer (.named x))) st =
        GenTypeName ctx (.slice (.named x)) st) :=
  ⟨fun _ _ _ => rfl, fun _ _ _ => rfl⟩

/-! ## C7: member grouping -/

/-- The loop's separator condition, rearranged into the specification's
wording: no blank line exactly for an alias/const following a member of the
same kind. -/
theorem sepImpl_eq (p m : Member) :
    (if (!(isAliasM m) && !(isConstM m)) || !(sameMemberKind m p)
     then (["\n"] : List String) else []) = sepSpec p m := by
  cases p <;> cases m <;> rfl

/-- The member loop agrees with its specification-worded restatement. -/
theorem genMembers_eq_spec (ctx : GenCtx) : ∀ (ms : List Member) (prev : Option Member)
    (st : PGState), genMembers ctx ms prev st = genMembersSpec ctx ms prev st := by
  intro ms
  induction ms with
  | nil => intro prev st; rfl
  | cons m rest ih =>
    intro prev st
    have hsep : (match prev with
        | none => ([] : List String)
        | some p => if (!(isAliasM m) && !(isConstM m)) || !(sameMemberKind m p)
                    then ["\n"] else []) =
        (match prev with
        | none => ([] : List String)
        | some p => sepSpec p m) := by
      cases prev with
      | none => rfl
      | some p => exact sepImpl_eq p m
    simp only [genMembers, genMembersSpec, ih, hsep]

/-- Joining with a final chunk appends it. -/
theorem join_append_singleton (l : List String) (x : String) :
    String.join (l ++ [x]) = String.join l ++ x := by
  apply String.ext
  simp [String.join_eq, String.data_append]

/-- C7: adjacent aliases and adjacent consts of the exact same kind get no
blank-line separator; every other adjacent pair gets one; a trailing newline
always terminates the member list — a blank line, since every member's last
chunk ends in a newline (also for the empty list); and the
`[Const, Const, Alias, Const]` example has exactly the claimed blank lines. -/
theorem genFileBody_grouping :
    (∀ (ctx : GenCtx) (ms : List Member) (prev : Option Member) (st : PGState),
      genMembers ctx ms prev st = genMembersSpec ctx ms prev st) ∧
    (∀ (ctx : GenCtx) (ms : List Member) (st : PGState),
      genFileBody ctx ms st =
        (genMembers ctx ms none st).map (fun r => (String.join r.1 ++ "\n", r.2))) ∧
    (∀ (ctx : GenCtx) (st : PGState), genFileBody ctx [] st = some ("\n", st)) ∧
    genFileBody ctx0 [.const k1, .const k2, .alias a1, .const k3] PGState.init =
      some ("export let K1: string = \"v1\";\nexport let K2: boolean = true;\n\n" ++
            "export type A1 = number;\n\nexport let K3: string = \"v3\";\n\n",
            PGState.init) := by
  refine ⟨fun ctx => genMembers_eq_spec ctx, ?_, fun _ _ => rfl, by decide⟩
  intro ctx ms st
  cases h : genMembers ctx ms none st with
  | none => simp [genFileBody, h]
  | some r => simp [genFileBody, h, join_append_singleton]

/-! ## C6: type-mapper idempotence and import bookkeeping -/

/-- Membership after a map-style insert. -/
theorem insertLocal_mem (l : List String) (name m : String) :
    m ∈ insertLocal l name ↔ m ∈ l ∨ m = name := by
  unfold insertLocal
  by_cases h : name ∈ l
  · simp only [if_pos h]
    constructor
    · exact Or.inl
    · rintro (hm | rfl)
      · exact hm
      · exact h
  · simp [if_neg h, List.mem_append]

/-- Inserting a key makes it present. -/
theorem insertLocal_self (l : List String) (name : String) : name ∈ insertLocal l name := by
  simp [insertLocal_mem]

/-- Inserting an already-present key is the identity. -/
theorem insertLocal_of_mem {l : List String} {name : String} (h : name ∈ l) :
    insertLocal l name = l := by
  simp [insertLocal, h]

/-- Map-style insertion never duplicates keys. -/
theorem insertLocal_nodup {l : List String} (name : String) (h : l.Nodup) :
    (insertLocal l name).Nodup := by
  unfold insertLocal
  by_cases hm : name ∈ l
  · simpa [hm]
  · simp [hm, List.nodup_append, h]

/-- Lookup through an appended association list. -/
theorem lookupFF_append (l e : List (String × String)) (q : String) :
    lookupFF (l ++ e) q =
      match lookupFF l q with
      | some v => some v
      | none => lookupFF e q := by
  induction l with
  | nil => rfl
  | cons p rest ih =>
    obtain ⟨pp, pn⟩ := p
    by_cases h : pp = q <;> simp [lookupFF, h, ih]

/-- A key has a lookup result exactly when it is among the keys. -/
theorem lookupFF_isSome_iff (l : List (String × String)) (q : String) :
    (lookupFF l q).isSome ↔ q ∈ l.map Prod.fst := by
  induction l with
  | nil => simp [lookupFF]
  | cons p rest ih =>
    obtain ⟨pp, pn⟩ := p
    by_cases h : pp = q
    · subst h
      simp [lookupFF]
    · simp only [lookupFF, if_neg h, List.map_cons, List.mem_cons, ih]
      constructor
      · exact Or.inr
      · rintro (heq | hm)
        · exact absurd heq.symm h
        · exact hm

/-- `StExt` is reflexive. -/
theorem StExt.refl (s : PGState) : StExt s s :=
  ⟨fun _ h => h, fun _ _ h => h⟩

/-- `StExt` is transitive. -/
theorem StExt.trans {a b c : PGState} (h1 : StExt a b) (h2 : StExt b c) : StExt a c :=
  ⟨fun n hn => h2.1 n (h1.1 n hn), fun p v hv => h2.2 p v (h1.2 p v hv)⟩

/-- `StExt` carries foreign keys along. -/
theorem StExt.ffKeys_sub {s1 s2 : PGState} (h : StExt s1 s2) :
    ∀ p ∈ ffKeys s1, p ∈ ffKeys s2 := by
  intro p hp
  have h1 : (lookupFF s1.ffimp p).isSome := (lookupFF_isSome_iff _ _).2 hp
  obtain ⟨v, hv⟩ := Option.isSome_iff_exists.1 h1
  have h2 := h.2 p v hv
  exact (lookupFF_isSome_iff _ _).1 (by simp [h2])

/-- `GenTypeName` only grows the import state. -/
theorem GenTypeName_mono (ctx : GenCtx) : ∀ (t : GoType) (st : PGState) (s : String)
    (st' : PGState), GenTypeName ctx t st = some (s, st') → StExt st st' := by
  intro t
  induction t with
  | basic k =>
    intro st s st' h
    cases k <;> simp_all [GenTypeName] <;> exact StExt.refl _
  | named info =>
    intro st s st' h
    simp only [GenTypeName] at h
    by_cases hpkg : info.pkgPath = ctx.currPkgPath
    · rw [if_pos hpkg] at h
      by_cases hfile : ctx.memberFiles info.name ≠ ctx.currfile
      · rw [if_pos hfile] at h
        simp only [Option.some.injEq, Prod.mk.injEq] at h
        obtain ⟨-, rfl⟩ := h
        exact ⟨fun n hn => (insertLocal_mem _ _ _).2 (Or.inl hn), fun p v hv => hv⟩
      · rw [if_neg hfile] at h
        simp only [Option.some.injEq, Prod.mk.injEq] at h
        obtain ⟨-, rfl⟩ := h
        exact StExt.refl _
    · rw [if_neg hpkg] at h
      cases hreg : lookupFF st.ffimp info.pkgPath with
      | some v =>
        simp only [registerForeign, hreg, Option.some.injEq, Prod.mk.injEq] at h
        obtain ⟨-, rfl⟩ := h
        exact StExt.refl _
      | none =>
        simp only [registerForeign, hreg, Option.some.injEq, Prod.mk.injEq] at h
        obtain ⟨-, rfl⟩ := h
        refine ⟨fun n hn => hn, fun p v hv => ?_⟩
        rw [lookupFF_append]
        simp [hv]
  | mapType k v ihk ihv =>
    intro st s st' h
    simp only [GenTypeName, Option.bind_eq_bind, Option.bind_eq_some] at h
    obtain ⟨⟨ks, stk⟩, hk, ⟨vs, stv⟩, hv, hfin⟩ := h
    simp only [Option.some.injEq, Prod.mk.injEq] at hfin
    obtain ⟨-, rfl⟩ := hfin
    exact StExt.trans (ihk _ _ _ hk) (ihv _ _ _ hv)
  | pointer e ih =>
    intro st s st' h
    exact ih _ _ _ h
  | slice e ih =>
    intro st s st' h
    simp only [GenTypeName, Option.bind_eq_bind, Option.bind_eq_some] at h
    obtain ⟨⟨es, ste⟩, he, hfin⟩ := h
    simp only [Option.some.injEq, Prod.mk.injEq] at hfin
    obtain ⟨-, rfl⟩ := hfin
    exact ih _ _ _ he

/-- Re-running `GenTypeName` from any state extending its own final state
produces the same text and leaves that state unchanged. -/
theorem GenTypeName_stable (ctx : GenCtx) : ∀ (t : GoType) (st st₁ st₂ : PGState) (s : String),
    GenTypeName ctx t st = some (s, st₁) → StExt st₁ st₂ →
    GenTypeName ctx t st₂ = some (s, st₂) := by
  intro t
  induction t with
  | basic k =>
    intro st st₁ st₂ s h hext
    cases k <;> simp_all [GenTypeName]
  | named info =>
    intro st st₁ st₂ s h hext
    simp only [GenTypeName] at h ⊢
    by_cases hpkg : info.pkgPath = ctx.currPkgPath
    · rw [if_pos hpkg] at h ⊢
      by_cases hfile : ctx.memberFiles info.name ≠ ctx.currfile
      · rw [if_pos hfile] at h ⊢
        simp only [Option.some.injEq, Prod.mk.injEq] at h
        obtain ⟨rfl, rfl⟩ := h
        have hmem : info.name ∈ st₂.flimp := hext.1 info.name (insertLocal_self _ _)
        simp [insertLocal_of_mem hmem]
      · rw [if_neg hfile] at h ⊢
        simp only [Option.some.injEq, Prod.mk.injEq] at h
        obtain ⟨rfl, rfl⟩ := h
        rfl
    · rw [if_neg hpkg] at h ⊢
      cases hreg : lookupFF st.ffimp info.pkgPath with
      | some v =>
        simp only [registerForeign, hreg, Option.some.injEq, Prod.mk.injEq] at h
        obtain ⟨rfl, rfl⟩ := h
        have h2 : lookupFF st₂.ffimp info.pkgPath = some v := hext.2 _ v hreg
        simp [registerForeign, h2]
      | none =>
        simp only [registerForeign, hreg, Option.some.injEq, Prod.mk.injEq] at h
        obtain ⟨rfl, rfl⟩ := h
        have h1 : lookupFF (st.ffimp ++ [(info.pkgPath, info.pkgName)]) info.pkgPath =
            some info.pkgName := by
          rw [lookupFF_append, hreg]
          simp [lookupFF]
        have h2 : lookupFF st₂.ffimp info.pkgPath = some info.pkgName := hext.2 _ _ h1
        simp [registerForeign, h2]
  | mapType k v ihk ihv =>
    intro st st₁ st₂ s h hext
    simp only [GenTypeName, Option.bind_eq_bind, Option.bind_eq_some] at h
    obtain ⟨⟨ks, stk⟩, hk, ⟨vs, stv⟩, hv, hfin⟩ := h
    simp only [Option.some.injEq, Prod.mk.injEq] at hfin
    obtain ⟨rfl, rfl⟩ := hfin
    have hext1 : StExt stk st₂ := StExt.trans (GenTypeName_mono ctx v stk vs stv hv) hext
    have hk2 := ihk _ _ _ _ hk hext1
    have hv2 := ihv _ _ _ _ hv hext
    simp [GenTypeName, hk2, hv2]
  | pointer e ih =>
    intro st st₁ st₂ s h hext
    exact ih _ _ _ _ h hext
  | slice e ih =>
    intro st st₁ st₂ s h hext
    simp only [GenTypeName, Option.bind_eq_bind, Option.bind_eq_some] at h
    obtain ⟨⟨es, ste⟩, he, hfin⟩ := h
    simp only [Option.some.injEq, Prod.mk.injEq] at hfin
    obtain ⟨rfl, rfl⟩ := hfin
    have he2 := ih _ _ _ _ he hext
    simp [GenTypeName, he2]

/-- `GenTypeName` keeps both import maps duplicate-free. -/
theorem GenTypeName_nodup (ctx : GenCtx) : ∀ (t : GoType) (st : PGState) (s : String)
    (st' : PGState), GenTypeName ctx t st = some (s, st') →
    (st.flimp.Nodup → st'.flimp.Nodup) ∧ ((ffKeys st).Nodup → (ffKeys st').Nodup) := by
  intro t
  induction t with
  | basic k =>
    intro st s st' h
    cases k <;> simp_all [GenTypeName]
  | named info =>
    intro st s st' h
    simp only [GenTypeName] at h
    by_cases hpkg : info.pkgPath = ctx.currPkgPath
    · rw [if_pos hpkg] at h
      by_cases hfile : ctx.memberFiles info.name ≠ ctx.currfile
      · rw [if_pos hfile] at h
        simp only [Option.some.injEq, Prod.mk.injEq] at h
        obtain ⟨-, rfl⟩ := h
        exact ⟨fun hn => insertLocal_nodup _ hn, id⟩
      · rw [if_neg hfile] at h
        simp only [Option.some.injEq, Prod.mk.injEq] at h
        obtain ⟨-, rfl⟩ := h
        exact ⟨id, id⟩
    · rw [if_neg hpkg] at h
      cases hreg : lookupFF st.ffimp info.pkgPath with
      | some v =>
        simp only [registerForeign, hreg, Option.some.injEq, Prod.mk.injEq] at h
        obtain ⟨-, rfl⟩ := h
        exact ⟨id, id⟩
      | none =>
        simp only [registerForeign, hreg, Option.some.injEq, Prod.mk.injEq] at h
        obtain ⟨-, rfl⟩ := h
        refine ⟨id, fun hn => ?_⟩
        have hnot : info.pkgPath ∉ ffKeys st := by
          intro hmem
          have := (lookupFF_isSome_iff _ _).2 hmem
          rw [hreg] at this
          exact absurd this (by simp)
        have hkeys : ffKeys { st with ffimp := st.ffimp ++ [(info.pkgPath, info.pkgName)] } =
            ffKeys st ++ [info.pkgPath] := by simp [ffKeys]
        rw [hkeys, List.nodup_append]
        refine ⟨hn, List.nodup_singleton _, fun a ha hb => ?_⟩
        simp only [List.mem_singleton] at hb
        subst hb
        exact hnot ha
  | mapType k v ihk ihv =>
    intro st s st' h
    simp only [GenTypeName, Option.bind_eq_bind, Option.bind_eq_some] at h
    obtain ⟨⟨ks, stk⟩, hk, ⟨vs, stv⟩, hv, hfin⟩ := h
    simp only [Option.some.injEq, Prod.mk.injEq] at hfin
    obtain ⟨-, rfl⟩ := hfin
    obtain ⟨hkf, hkk⟩ := ihk _ _ _ hk
    obtain ⟨hvf, hvk⟩ := ihv _ _ _ hv
    exact ⟨fun hn => hvf (hkf hn), fun hn => hvk (hkk hn)⟩
  | pointer e ih =>
    intro st s st' h
    exact ih _ _ _ h
  | slice e ih =>
    intro st s st' h
    simp only [GenTypeName, Option.bind_eq_bind, Option.bind_eq_some] at h
    obtain ⟨⟨es, ste⟩, he, hfin⟩ := h
    simp only [Option.some.injEq, Prod.mk.injEq] at hfin
    obtain ⟨-, rfl⟩ := hfin
    exact ih _ _ _ he

/-- After `GenTypeName`, every referenced non-co-located local member name is
in `Flimp` and every referenced foreign package path is among the `Ffimp`
keys. -/
theorem GenTypeName_refs (ctx : GenCtx) : ∀ (t : GoType) (st : PGState) (s : String)
    (st' : PGState), GenTypeName ctx t st = some (s, st') →
    (∀ n ∈ localRefs ctx t, n ∈ st'.flimp) ∧ (∀ p ∈ foreignRefs ctx t, p ∈ ffKeys st') := by
  intro t
  induction t with
  | basic k =>
    intro st s st' h
    cases k <;> simp_all [localRefs, foreignRefs]
  | named info =>
    intro st s st' h
    simp only [GenTypeName] at h
    simp only [localRefs, foreignRefs]
    by_cases hpkg : info.pkgPath = ctx.currPkgPath
    · rw [if_pos hpkg] at h ⊢
      rw [if_pos hpkg]
      by_cases hfile : ctx.memberFiles info.name ≠ ctx.currfile
      · rw [if_pos hfile] at h ⊢
        simp only [Option.some.injEq, Prod.mk.injEq] at h
        obtain ⟨-, rfl⟩ := h
        refine ⟨?_, by simp⟩
        intro n hn
        simp only [List.mem_singleton] at hn
        subst hn
        exact insertLocal_self _ _
      · rw [if_neg hfile] at h ⊢
        simp only [Option.some.injEq, Prod.mk.injEq] at h
        obtain ⟨-, rfl⟩ := h
        exact ⟨by simp, by simp⟩
    · rw [if_neg hpkg] at h ⊢
      rw [if_neg hpkg]
      cases hreg : lookupFF st.ffimp info.pkgPath with
      | some v =>
        simp only [registerForeign, hreg, Option.some.injEq, Prod.mk.injEq] at h
        obtain ⟨-, rfl⟩ := h
        refine ⟨by simp, ?_⟩
        intro p hp
        simp only [List.mem_singleton] at hp
        subst hp
        exact (lookupFF_isSome_iff _ _).1 (by simp [hreg])
      | none =>
        simp only [registerForeign, hreg, Option.some.injEq, Prod.mk.injEq] at h
        obtain ⟨-, rfl⟩ := h
        refine ⟨by simp, ?_⟩
        intro p hp
        simp only [List.mem_singleton] at hp
        subst hp
        simp [ffKeys]
  | mapType k v ihk ihv =>
    intro st s st' h
    simp only [GenTypeName, Option.bind_eq_bind, Option.bind_eq_some] at h
    obtain ⟨⟨ks, stk⟩, hk, ⟨vs, stv⟩, hv, hfin⟩ := h
    simp only [Option.some.injEq, Prod.mk.injEq] at hfin
    obtain ⟨-, rfl⟩ := hfin
    obtain ⟨hkl, hkp⟩ := ihk _ _ _ hk
    obtain ⟨hvl, hvp⟩ := ihv _ _ _ hv
    have hext : StExt stk stv := GenTypeName_mono ctx v stk vs stv hv
    constructor
    · intro n hn
      rcases List.mem_append.1 hn with hnk | hnv
      · exact hext.1 n (hkl n hnk)
      · exact hvl n hnv
    · intro p hp
      rcases List.mem_append.1 hp with hpk | hpv
      · exact hext.ffKeys_sub p (hkp p hpk)
      · exact hvp p hpv
  | pointer e ih =>
    intro st s st' h
    exact ih _ _ _ h
  | slice e ih =>
    intro st s st' h
    simp only [GenTypeName, Option.bind_eq_bind, Option.bind_eq_some] at h
    obtain ⟨⟨es, ste⟩, he, hfin⟩ := h
    simp only [Option.some.injEq, Prod.mk.injEq] at hfin
    obtain ⟨-, rfl⟩ := hfin
    exact ih _ _ _ he

/-- C6: the type mapper is idempotent on both its output and its import side
channel: a second mapping of the same shape from the reached state yields the
same text and leaves the state unchanged; the import bookkeeping holds at
most one entry per local member name and per foreign package path (no
duplicates), and at least one for every referenced non-co-located local name
and foreign path. -/
theorem GenTypeName_idempotent :
    ∀ (ctx : GenCtx) (t : GoType) (st : PGState) (s : String) (st' : PGState),
      GenTypeName ctx t st = some (s, st') →
      GenTypeName ctx t st' = some (s, st') ∧
      (st.flimp.Nodup → st'.flimp.Nodup) ∧
      ((ffKeys st).Nodup → (ffKeys st').Nodup) ∧
      (∀ n ∈ localRefs ctx t, n ∈ st'.flimp) ∧
      (∀ p ∈ foreignRefs ctx t, p ∈ ffKeys st') := by
  intro ctx t st s st' h
  obtain ⟨hn1, hn2⟩ := GenTypeName_nodup ctx t st s st' h
  obtain ⟨hr1, hr2⟩ := GenTypeName_refs ctx t st s st' h
  exact ⟨GenTypeName_stable ctx t st st' st' s h (StExt.refl st'), hn1, hn2, hr1, hr2⟩

/-- C6 witness: the shape `tF` (a foreign named key, a local named element
under slice and pointer) mapped from the empty per-file state. -/
theorem GenTypeName_idempotent_witness :
    GenTypeName ctx8 tF stF = some ("\x7b[key: fpkg.X]: Other[]\x7d", stF) ∧
    (PGState.init.flimp.Nodup → stF.flimp.Nodup) ∧
    ((ffKeys PGState.init).Nodup → (ffKeys stF).Nodup) ∧
    (∀ n ∈ localRefs ctx8 tF, n ∈ stF.flimp) ∧
    (∀ p ∈ foreignRefs ctx8 tF, p ∈ ffKeys stF) :=
  GenTypeName_idempotent ctx8 tF PGState.init "\x7b[key: fpkg.X]: Other[]\x7d" stF rfl

/-! ## C9: foreign imports are fatal at header assembly -/

/-- C9: if any foreign package was recorded during body generation, header
assembly aborts with the fatal `not yet supported` failure (the reference is
never silently dropped); with no foreign reference recorded it succeeds. -/
theorem emitFileContents_foreign_fatal :
    ∀ (ctx : GenCtx) (file body : String) (st : PGState),
      (st.ffimp ≠ [] → emitFileContents ctx file body st = none) ∧
      (st.ffimp = [] → (emitFileContents ctx file body st).isSome) := by
  intro ctx file body st
  constructor
  · intro h
    have hl : st.ffimp.length > 0 := List.length_pos.mpr h
    simp [emitFileContents, hl]
  · intro h
    simp [emitFileContents, h]

/-- C9 witness: the state `stF` holds the foreign record `fp`, the initial
state holds none. -/
theorem emitFileContents_foreign_fatal_witness :
    emitFileContents ctx8 "out/a/b.go" "BODY" stF = none ∧
    (emitFileContents ctx8 "out/a/b.go" "BODY" PGState.init).isSome :=
  ⟨(emitFileContents_foreign_fatal ctx8 "out/a/b.go" "BODY" stF).1 (by decide),
   (emitFileContents_foreign_fatal ctx8 "out/a/b.go" "BODY" PGState.init).2 rfl⟩

/-! ## C10: output-path derivation -/

/-- A character has no last index exactly in lists that avoid it. -/
theorem lastIdxOf_eq_none {c : Char} : ∀ l : List Char, c ∉ l → lastIdxOf c l = none := by
  intro l
  induction l with
  | nil => intro _; rfl
  | cons a rest ih =>
    intro h
    simp only [List.mem_cons, not_or] at h
    obtain ⟨h1, h2⟩ := h
    have ha : ¬(a = c) := fun hh => h1 hh.symm
    simp [lastIdxOf, ih h2, ha]

/-- The last dot of `pre ++ "." ++ suf` with a dot-free `suf` sits right
after `pre`. -/
theorem lastIdxOf_append_dot (pre suf : List Char) (h : '.' ∉ suf) :
    lastIdxOf '.' (pre ++ '.' :: suf) = some pre.length := by
  induction pre with
  | nil => simp [lastIdxOf, lastIdxOf_eq_none suf h]
  | cons a rest ih => simp [lastIdxOf, ih]

/-- C10: the emitter's output-path derivation truncates at the last `.`
anywhere in the whole path — also when that dot sits in a directory name —
and appends `.ts`; a dot-free path just gets `.ts` appended. -/
theorem tsOutputPath_last_dot :
    (∀ s : String, '.' ∉ s.data → tsOutputPath s = s ++ ".ts") ∧
    (∀ pre suf : String, '.' ∉ suf.data →
      tsOutputPath (pre ++ "." ++ suf) = pre ++ ".ts") := by
  constructor
  · intro s h
    simp [tsOutputPath, strLastIndex, lastIdxOf_eq_none _ h]
  · intro pre suf h
    have hd : ("." : String).data = ['.'] := rfl
    have hdata : (pre ++ "." ++ suf).data = pre.data ++ '.' :: suf.data := by
      simp [String.data_append, hd]
    simp only [tsOutputPath, strLastIndex, hdata, lastIdxOf_append_dot _ _ h]
    have htake : (pre.data ++ '.' :: suf.data).take pre.data.length = pre.data :=
      List.take_left pre.data ('.' :: suf.data)
    rw [htake]

/-- C10 witness: a dot-free path, and the path `dir.v2/file` whose only dot
sits in the directory name: everything from the dot on, directory structure
included, is cut before `.ts` is appended. -/
theorem tsOutputPath_last_dot_witness :
    tsOutputPath "dirfile" = "dirfile" ++ ".ts" ∧
    tsOutputPath ("dir" ++ "." ++ "v2/file") = "dir" ++ ".ts" :=
  ⟨tsOutputPath_last_dot.1 "dirfile" (by decide),
   tsOutputPath_last_dot.2 "dir" "v2/file" (by decide)⟩

/-! ## C8: local-import lines -/

/-- The backwards extension scan never crosses a path separator. -/
theorem extScan_append_slash : ∀ (l m acc : List Char),
    extScan (l ++ '/' :: m) acc = extScan l acc := by
  intro l
  induction l with
  | nil => intro m acc; simp [extScan]
  | cons c rest ih =>
    intro m acc
    by_cases h1 : c = '/'
    · simp [extScan, h1]
    · by_cases h2 : c = '.'
      · simp [extScan, h1, h2]
      · simp [extScan, h1, h2, ih]

/-- Prefixing `./` does not change a path's extension. -/
theorem extOf_dotSlash (rel : String) : extOf ("./" ++ rel) = extOf rel := by
  have hd : ("./" : String).data = ['.', '/'] := rfl
  have hdata : ("./" ++ rel).data.reverse = rel.data.reverse ++ '/' :: ['.'] := by
    simp [String.data_append, hd]
  simp [extOf, hdata, extScan_append_slash]

/-- A non-empty extension scan passed over a dot. -/
theorem extScan_ne_empty : ∀ (l acc : List Char), extScan l acc ≠ "" → '.' ∈ l := by
  intro l
  induction l with
  | nil => intro acc h; simp [extScan] at h
  | cons c rest ih =>
    intro acc h
    by_cases h1 : c = '/'
    · simp [extScan, h1] at h
    · by_cases h2 : c = '.'
      · simp [h2]
      · simp only [extScan, if_neg h1, if_neg h2] at h
        exact List.mem_cons_of_mem _ (ih _ h)

/-- A present character has a last index. -/
theorem lastIdxOf_isSome_of_mem {c : Char} : ∀ l : List Char, c ∈ l →
    (lastIdxOf c l).isSome := by
  intro l
  induction l with
  | nil => intro h; simp at h
  | cons a rest ih =>
    intro h
    simp only [lastIdxOf]
    cases hr : lastIdxOf c rest with
    | some i => simp
    | none =>
      rcases List.mem_cons.1 h with rfl | hm
      · simp
      · have := ih hm
        rw [hr] at this
        simp at this

/-- Stripping the last dot commutes with the `./` prefix when a dot is
present. -/
theorem stripLastDot_dotSlash (rel : String) (h : (lastIdxOf '.' rel.data).isSome) :
    stripLastDot ("./" ++ rel) = "./" ++ stripLastDot rel := by
  obtain ⟨i, hi⟩ := Option.isSome_iff_exists.1 h
  have hd : ("./" : String).data = ['.', '/'] := rfl
  have hdata : ("./" ++ rel).data = '.' :: '/' :: rel.data := by
    simp [String.data_append, hd]
  have h2 : lastIdxOf '.' ('.' :: '/' :: rel.data) = some (i + 2) := by
    simp [lastIdxOf, hi]
  simp only [stripLastDot, strLastIndex, hdata, h2, hi]
  have htake : ('.' :: '/' :: rel.data).take (i + 2) = '.' :: '/' :: rel.data.take i := rfl
  rw [htake]
  rfl

/-- The loop body of the local-import emission produces exactly the
claim-side import line: same braces-and-quotes shape, module path computed
relative to the emitted file's directory, extension-stripped and
`./`-prefixed when the computed path is not dot-relative. -/
theorem localImportLine_eq_spec (ctx : GenCtx) (file name : String) :
    localImportLine ctx file name = importLineSpec ctx file name := by
  simp only [localImportLine, importLineSpec, modulePathSpec]
  set rel := relPath (dirPath file) (joinPath ctx.out (ctx.memberFiles name)) with hrel
  by_cases hpre : strStartsWith rel "."
  · simp [hpre]
  · simp only [hpre, Bool.false_eq_true, if_false]
    rw [extOf_dotSlash]
    by_cases hext : extOf rel ≠ ""
    · rw [if_pos hext, if_pos hext, stripLastDot_dotSlash]
      apply lastIdxOf_isSome_of_mem
      exact List.mem_reverse.1 (extScan_ne_empty _ _ hext)
    · rw [if_neg hext, if_neg hext]

/-- C8: with no foreign reference recorded, the assembled file header holds,
after the banner (and the Coconut import when a resource was emitted),
exactly one local-import line per recorded member name, of the form
`import {Name} from "<relative-module-path>";` with the path as the claim
describes, followed by a blank line when any were emitted, then the body. -/
theorem emitFileContents_imports :
    ∀ (ctx : GenCtx) (file body : String) (st : PGState),
      st.ffimp = [] →
      emitFileContents ctx file body st =
        some (String.join (bannerChunks ++
          (if st.fhadres then ["import * as coconut from \"@coconut/coconut\";\n", "\n"]
           else []) ++
          (if st.flimp.length > 0
           then st.flimp.map (importLineSpec ctx (tsOutputPath file)) ++ ["\n"] else []) ++
          [body ++ "\n"])) ∧
      (st.flimp.map (importLineSpec ctx (tsOutputPath file))).length = st.flimp.length := by
  intro ctx file body st hff
  have hmap : st.flimp.map (localImportLine ctx (tsOutputPath file)) =
      st.flimp.map (importLineSpec ctx (tsOutputPath file)) :=
    List.map_congr_left (fun a _ => localImportLine_eq_spec ctx (tsOutputPath file) a)
  constructor
  · simp [emitFileContents, hff, hmap]
  · simp

/-- C8 witness: the context `ctx8` (current file `a/b.go`, member `Other` at
`c/d.go`), with `Other` recorded; the import line works out to
`import \x7bOther\x7d from "../c/d";`. -/
theorem emitFileContents_imports_witness :
    (emitFileContents ctx8 "out/a/b.go" "BODY" stW =
      some (String.join (bannerChunks ++
        (if stW.fhadres then ["import * as coconut from \"@coconut/coconut\";\n", "\n"]
         else []) ++
        (if stW.flimp.length > 0
         then stW.flimp.map (importLineSpec ctx8 (tsOutputPath "out/a/b.go")) ++ ["\n"]
         else []) ++
        ["BODY" ++ "\n"])) ∧
      (stW.flimp.map (importLineSpec ctx8 (tsOutputPath "out/a/b.go"))).length =
        stW.flimp.length) ∧
    importLineSpec ctx8 (tsOutputPath "out/a/b.go") "Other" =
      "import \x7bOther\x7d from \"../c/d\";\n" :=
  ⟨emitFileContents_imports ctx8 "out/a/b.go" "BODY" stW rfl, rfl⟩

end Cidlc

